import Mathlib

/-!
A verification development for `sequence.h`.

`sequence<T, Traits>` is a non-owning view over a contiguous run of elements:
a triple (begin pointer, end pointer, length).  The embedding below follows the
header function by function.

* Pointers are addresses, natural numbers; pointer arithmetic is addition.
* The memory is a total map from addresses to elements: dereferencing
  `*(seq_begin + pos)` reads the cell at address `seq_begin + pos`, whatever
  `pos` is.  The relational operators, whose walk can leave the left view, read
  through `Mem.read`, which has a value only at the addresses that hold an
  element of a buffer.
* `size_type` is `std::size_t`, 64 bits wide: arithmetic on sizes is taken
  modulo `2 ^ 64`, and `npos = size_type(-1) = 2 ^ 64 - 1`.
* `throw std::out_of_range(..)` is the error of an `Except`.
* A `for` loop is a function recursive in the number of iterations left; its
  loop condition is tested as in the source.
-/

namespace Sequence

/-! ## Sizes -/

/-- The number of values of `std::size_t`. -/
def SIZE_MOD : Nat := 2 ^ 64

/-- The constant `npos = size_type(-1)`. -/
def npos : Nat := 2 ^ 64 - 1

/-- Addition of two `size_type` values. -/
def sz_add (a b : Nat) : Nat := (a + b) % SIZE_MOD

/-- Subtraction of two `size_type` values (both below `2 ^ 64`). -/
def sz_sub (a b : Nat) : Nat := (a + SIZE_MOD - b) % SIZE_MOD

/-! ## Memory and traits -/

/-- The memory: the element stored at every address. -/
abbrev Mem (T : Type) := Nat → T

/-- Memory `m` after the store `*p = x`. -/
def Mem.store {T : Type} (m : Mem T) (p : Nat) (x : T) : Mem T :=
  fun a => if a = p then x else m a

/-- The element-level policy a `sequence` is instantiated with: `eq`, `lt`
and `assign` (`assign r a` is the value of `r` after `Traits::assign(r, a)`).
The member `length` is used by the pointer-only constructor alone; that of
`seq_traits` is `seq_traits_length` below. -/
structure Traits (T : Type) where
  eq : T → T → Bool
  lt : T → T → Bool
  assign : T → T → T

/-- The policy `seq_traits`: `type = char`, a character being its integer
value; `eq` is `a == b`, `lt` is `a < b`, `assign(r, a)` is `r = a`. -/
def seq_traits : Traits Int where
  eq a b := decide (a = b)
  lt a b := decide (a < b)
  assign _ a := a

/-- The exception thrown by `at`, `copy` and `subseq`. -/
inductive Exn where
  | out_of_range
  deriving DecidableEq, Repr

/-! ## The view -/

/-- The three private members of `sequence<T, Traits>`. -/
structure sequence where
  seq_begin : Nat
  seq_end : Nat
  length : Nat
  deriving DecidableEq, Repr

/-- The constructor `sequence()`: `nullptr` is address `0`. -/
def sequence.default : sequence := ⟨0, 0, 0⟩

/-- The constructor `sequence(const T* s, size_type count)`. -/
def sequence.ofPtrCount (s count : Nat) : sequence :=
  { seq_begin := s, length := count, seq_end := s + count }

/-- The member `begin()`. -/
def sequence.begin (v : sequence) : Nat := v.seq_begin

/-- The member `end()`. -/
def sequence.end_ (v : sequence) : Nat := v.seq_end

/-- The member `size()`. -/
def sequence.size (v : sequence) : Nat := v.length

/-- The member `empty()`. -/
def sequence.empty (v : sequence) : Bool := v.length == 0

/-- The member `operator[]`: `*(seq_begin + pos)`. -/
def sequence.index {T : Type} (m : Mem T) (v : sequence) (pos : Nat) : T :=
  m (v.seq_begin + pos)

/-- The member `at(pos)`. -/
def sequence.at {T : Type} (m : Mem T) (v : sequence) (pos : Nat) : Except Exn T :=
  if pos ≥ v.length then .error .out_of_range else .ok (m (v.seq_begin + pos))

/-! ## `compare` -/

/-- The loop of `compare` from index `i` on, followed by the comparison of the
two lengths; `fuel` is the number of iterations left. -/
def sequence.compare_loop {T : Type} (Tr : Traits T) (m : Mem T) (a v : sequence) :
    Nat → Nat → Int
  | 0, _ =>
    if a.length > v.length then 1 else if a.length < v.length then -1 else 0
  | fuel + 1, i =>
    if i < a.length ∧ i < v.length then
      if Tr.lt (m (a.begin + i)) (m (v.begin + i)) then -1
      else if Tr.lt (m (v.begin + i)) (m (a.begin + i)) then 1
      else sequence.compare_loop Tr m a v fuel (i + 1)
    else
      if a.length > v.length then 1 else if a.length < v.length then -1 else 0

/-- The member `compare(v)`. -/
def sequence.compare {T : Type} (Tr : Traits T) (m : Mem T) (a v : sequence) : Int :=
  sequence.compare_loop Tr m a v (min a.length v.length) 0

/-! ## `find` and `rfind` -/

/-- The inner loop of `find` and of `rfind`, from index `j` on: the value of
the flag `f` when the loop is left, `false` after the first pair of elements
that are not `eq`, `true` if there is none; `fuel` is the number of iterations
left. -/
def sequence.window_loop {T : Type} (Tr : Traits T) (m : Mem T) (h v : sequence)
    (i : Nat) : Nat → Nat → Bool
  | 0, _ => true
  | fuel + 1, j =>
    if j < v.size then
      if !Tr.eq (m (h.begin + i + j)) (m (v.begin + j)) then false
      else sequence.window_loop Tr m h v i fuel (j + 1)
    else true

/-- The outer loop of `find`, `for (i = pos; i < len1 - len2 + 1; i++)`, with
`bound` the value of `len1 - len2 + 1`; `fuel` is the number of iterations
left.  The index stays below `bound`, so `i++` never wraps. -/
def sequence.find_loop {T : Type} (Tr : Traits T) (m : Mem T) (h v : sequence)
    (bound : Nat) : Nat → Nat → Nat
  | 0, _ => npos
  | fuel + 1, i =>
    if i < bound then
      if sequence.window_loop Tr m h v i v.size 0 then i
      else sequence.find_loop Tr m h v bound fuel (i + 1)
    else npos

/-- The member `find(v, pos)`; `len1 - len2 + 1` is computed in `size_type`. -/
def sequence.find {T : Type} (Tr : Traits T) (m : Mem T) (h v : sequence) (pos : Nat) : Nat :=
  let bound := sz_add (sz_sub h.size v.size) 1
  sequence.find_loop Tr m h v bound (bound - pos) pos

/-- The outer loop of `rfind`, which keeps in `k` the last index whose window
matched; `fuel` is the number of iterations left. -/
def sequence.rfind_loop {T : Type} (Tr : Traits T) (m : Mem T) (h v : sequence)
    (bound : Nat) : Nat → Nat → Nat → Nat
  | 0, _, k => k
  | fuel + 1, i, k =>
    if i < bound then
      sequence.rfind_loop Tr m h v bound fuel (i + 1)
        (if sequence.window_loop Tr m h v i v.size 0 then i else k)
    else k

/-- The member `rfind(v, pos)`: `pos++` comes first, in `size_type`. -/
def sequence.rfind {T : Type} (Tr : Traits T) (m : Mem T) (h v : sequence) (pos : Nat) : Nat :=
  let pos1 := sz_add pos 1
  let bound := sz_add (sz_sub h.size v.size) 1
  sequence.rfind_loop Tr m h v bound (bound - pos1) pos1 npos

/-! ## `subseq` and `copy` -/

/-- The member `subseq(pos, count)`; the bound `pos + count - 1` is computed in
`size_type`. -/
def sequence.subseq (v : sequence) (pos count : Nat) : Except Exn sequence :=
  if pos ≥ v.length ∨ sz_sub (sz_add pos count) 1 > v.length then .error .out_of_range
  else .ok (sequence.ofPtrCount (v.seq_begin + pos) count)

/-- What a call of `copy` leaves behind: the value returned, the memory after
the stores to `dest`, and the indices of the view that were read, in order. -/
structure copy_result (T : Type) where
  ret : Nat
  mem : Mem T
  reads : List Nat

/-- The loop of `copy` from index `i` on: the test `pos + i < length` is in
`size_type`, the accesses `dest[i]` and `*(seq_begin + pos + i)` are pointer
arithmetic; `fuel` is the number of iterations left. -/
def sequence.copy_loop {T : Type} (Tr : Traits T) (v : sequence) (dest count pos : Nat) :
    Nat → Nat → Mem T → List Nat → copy_result T
  | 0, i, m, rd => ⟨i, m, rd⟩
  | fuel + 1, i, m, rd =>
    if i < count ∧ sz_add pos i < v.length then
      sequence.copy_loop Tr v dest count pos fuel (i + 1)
        (m.store (dest + i) (Tr.assign (m (dest + i)) (m (v.seq_begin + pos + i))))
        (rd ++ [pos + i])
    else ⟨i, m, rd⟩

/-- The member `copy(dest, count, pos)`, `dest` being an address of `m`. -/
def sequence.copy {T : Type} (Tr : Traits T) (m : Mem T) (v : sequence)
    (dest count pos : Nat) : Except Exn (copy_result T) :=
  if pos ≥ v.length then .error .out_of_range
  else .ok (sequence.copy_loop Tr v dest count pos count 0 m [])

/-! ## The relational operators -/

/-- The comma operator of C++: `a, b` evaluates `a`, drops its value and is
`b`. -/
def comma (_a b : Bool) : Bool := b

/-- The read `*p` of a relational operator.  `al` tells which addresses hold an
element of a buffer; a read at any other address, such as the read through the
null pointer of the default-constructed view, is out of bounds and yields no
value. -/
def Mem.read {T : Type} (al : Nat → Bool) (m : Mem T) (p : Nat) : Option T :=
  if al p then some (m p) else none

/-- The loop of `operator==` from index `i` on, followed by its `return`;
`fuel` is the number of iterations left.  The value is `none` when the walk
reads out of bounds. -/
def operator_eq_loop {T : Type} (Tr : Traits T) (al : Nat → Bool) (m : Mem T)
    (lhs rhs : sequence) : Nat → Nat → Option Bool
  | 0, i => some (decide (i = lhs.length) && decide (i = rhs.length))
  | fuel + 1, i =>
    if comma (decide (i < lhs.length)) (decide (i < rhs.length)) then
      match Mem.read al m (lhs.begin + i), Mem.read al m (rhs.begin + i) with
      | some x, some y =>
        if !Tr.eq x y then some false
        else operator_eq_loop Tr al m lhs rhs fuel (i + 1)
      | _, _ => none
    else some (decide (i = lhs.length) && decide (i = rhs.length))

/-- The function `operator==`. -/
def operator_eq {T : Type} (Tr : Traits T) (al : Nat → Bool) (m : Mem T)
    (lhs rhs : sequence) : Option Bool :=
  operator_eq_loop Tr al m lhs rhs rhs.length 0

/-- The function `operator!=`, `!(lhs == rhs)`. -/
def operator_ne {T : Type} (Tr : Traits T) (al : Nat → Bool) (m : Mem T)
    (lhs rhs : sequence) : Option Bool :=
  (operator_eq Tr al m lhs rhs).map (fun r => !r)

/-- The loop of `operator>` from index `i` on, followed by its `return`;
`fuel` is the number of iterations left.  The value is `none` when the walk
reads out of bounds. -/
def operator_gt_loop {T : Type} (Tr : Traits T) (al : Nat → Bool) (m : Mem T)
    (lhs rhs : sequence) : Nat → Nat → Option Bool
  | 0, i => some (decide (i < lhs.length) && decide (i = rhs.length))
  | fuel + 1, i =>
    if comma (decide (i < lhs.length)) (decide (i < rhs.length)) then
      match Mem.read al m (lhs.begin + i), Mem.read al m (rhs.begin + i) with
      | some x, some y =>
        if Tr.lt x y then some false
        else operator_gt_loop Tr al m lhs rhs fuel (i + 1)
      | _, _ => none
    else some (decide (i < lhs.length) && decide (i = rhs.length))

/-- The function `operator>`. -/
def operator_gt {T : Type} (Tr : Traits T) (al : Nat → Bool) (m : Mem T)
    (lhs rhs : sequence) : Option Bool :=
  operator_gt_loop Tr al m lhs rhs rhs.length 0

/-- The loop of `operator<` from index `i` on, followed by its `return`;
`fuel` is the number of iterations left.  The value is `none` when the walk
reads out of bounds. -/
def operator_lt_loop {T : Type} (Tr : Traits T) (al : Nat → Bool) (m : Mem T)
    (lhs rhs : sequence) : Nat → Nat → Option Bool
  | 0, i => some (decide (i = lhs.length) && decide (i < rhs.length))
  | fuel + 1, i =>
    if comma (decide (i < lhs.length)) (decide (i < rhs.length)) then
      match Mem.read al m (lhs.begin + i), Mem.read al m (rhs.begin + i) with
      | some x, some y =>
        if !Tr.lt x y then some false
        else operator_lt_loop Tr al m lhs rhs fuel (i + 1)
      | _, _ => none
    else some (decide (i = lhs.length) && decide (i < rhs.length))

/-- The function `operator<`. -/
def operator_lt {T : Type} (Tr : Traits T) (al : Nat → Bool) (m : Mem T)
    (lhs rhs : sequence) : Option Bool :=
  operator_lt_loop Tr al m lhs rhs rhs.length 0

/-- The function `operator<=`, `!(lhs > rhs)`. -/
def operator_le {T : Type} (Tr : Traits T) (al : Nat → Bool) (m : Mem T)
    (lhs rhs : sequence) : Option Bool :=
  (operator_gt Tr al m lhs rhs).map (fun r => !r)

/-- The function `operator>=`, `!(lhs < rhs)`. -/
def operator_ge {T : Type} (Tr : Traits T) (al : Nat → Bool) (m : Mem T)
    (lhs rhs : sequence) : Option Bool :=
  (operator_lt Tr al m lhs rhs).map (fun r => !r)

/-! ## Constructors, assignment and the members that move the ends -/

/-- The copy constructor `sequence(const sequence& original)`. -/
def sequence.ofSequence (original : sequence) : sequence :=
  { seq_begin := original.begin, length := original.length, seq_end := original.end_ }

/-- The loop of `seq_traits::length`, `for (it = s; it; it++) result++`, from
the pointer `it` on: its condition tests the pointer `it` itself, and no
element is read.  The value is `none` when the loop is still running after
`fuel` iterations. -/
def seq_traits_length_loop : Nat → Nat → Nat → Option Nat
  | 0, _, _ => none
  | fuel + 1, it, result =>
    if it ≠ 0 then seq_traits_length_loop fuel (it + 1) (sz_add result 1)
    else some result

/-- The function `seq_traits::length(s)`, run for at most `fuel` iterations. -/
def seq_traits_length (fuel s : Nat) : Option Nat :=
  seq_traits_length_loop fuel s 0

/-- The constructor `sequence(const T* s)` over `seq_traits`, with
`Traits::length(s)` run for at most `fuel` iterations. -/
def sequence.ofPtr (fuel s : Nat) : Option sequence :=
  match seq_traits_length fuel s with
  | some n => some { seq_begin := s, length := n, seq_end := s + n }
  | none => none

/-- The member `operator=`, as written: its third statement assigns
`original.size()` to `seq_begin`, and `length` is not assigned. -/
def sequence.operator_assign (self original : sequence) : sequence :=
  let s1 : sequence := { self with seq_begin := original.begin }
  let s2 : sequence := { s1 with seq_end := original.end_ }
  { s2 with seq_begin := original.size }

/-- The member `remove_prefix(n)`: `seq_begin += n` is pointer arithmetic,
`length -= n` is in `size_type`. -/
def sequence.remove_prefix (v : sequence) (n : Nat) : sequence :=
  { v with seq_begin := v.seq_begin + n, length := sz_sub v.length n }

/-- The member `remove_suffix(n)`: `seq_end -= n` is pointer arithmetic,
`length -= n` is in `size_type`. -/
def sequence.remove_suffix (v : sequence) (n : Nat) : sequence :=
  { v with seq_end := v.seq_end - n, length := sz_sub v.length n }

/-- The member `swap(v)`: the pair of `*this` and `v` after the three
`std::swap` calls. -/
def sequence.swap (self v : sequence) : sequence × sequence :=
  ({ seq_begin := v.seq_begin, seq_end := v.seq_end, length := v.length },
   { seq_begin := self.seq_begin, seq_end := self.seq_end, length := self.length })

/-- The memory after the call `v.copy(dest, count, pos)`: the memory of the
result when the call returns, and the memory `m` of before when it raises, the
`throw` being the first statement of `copy`. -/
def sequence.copy_mem_after {T : Type} (Tr : Traits T) (m : Mem T) (v : sequence)
    (dest count pos : Nat) : Mem T :=
  match v.copy Tr m dest count pos with
  | .ok r => r.mem
  | .error _ => m

/-! ## `std::hash` of a view -/

/-- Multiplication of two `size_type` values. -/
def sz_mul (a b : Nat) : Nat := (a * b) % SIZE_MOD

/-- The expression `hash(*it)` in the body of
`std::hash<sequence<T, Traits>>::operator()`.  Inside that class the name
`hash` is the class itself, `hash<sequence<T, Traits>>`, which has no
constructor from an element and no `operator*`: the expression is ill-formed
and denotes no value, for any element. -/
def hash_of_element {T : Type} (_x : T) : Option Nat := none

/-- The loop of `std::hash<sequence<T, Traits>>::operator()` from the pointer
`it` on, `for (it = s.begin(); it != s.end(); it++)`, with `h` the hash so far.
The value is `none` when no value is produced: the loop is still running after
`fuel` iterations, or its body has no value. -/
def hash_loop {T : Type} (m : Mem T) (s : sequence) : Nat → Nat → Nat → Option Nat
  | 0, it, h => if it ≠ s.end_ then none else some h
  | fuel + 1, it, h =>
    if it ≠ s.end_ then
      match hash_of_element (m it) with
      | some e =>
        hash_loop m s fuel (it + 1) (Nat.xor h (sz_add (sz_mul e 32898) 10000714))
      | none => none
    else some h

/-- The function `std::hash<sequence<T, Traits>>::operator()(s)`: the loop
walks from `begin()` to `end()`. -/
def hash {T : Type} (m : Mem T) (s : sequence) : Option Nat :=
  hash_loop m s (s.end_ - s.begin) s.begin 0

/-! ## The elements a call reads -/

/-- The inner loop of `find`, as `sequence.window_loop`, with the log `rd` of
the indices of `h` read so far: each test reads `*(it1 + i + j)`, index
`i + j` of `h`. -/
def sequence.window_loop_traced {T : Type} (Tr : Traits T) (m : Mem T) (h v : sequence)
    (i : Nat) : Nat → Nat → List Nat → Bool × List Nat
  | 0, _, rd => (true, rd)
  | fuel + 1, j, rd =>
    if j < v.size then
      if !Tr.eq (m (h.begin + i + j)) (m (v.begin + j)) then (false, rd ++ [i + j])
      else sequence.window_loop_traced Tr m h v i fuel (j + 1) (rd ++ [i + j])
    else (true, rd)

/-- The outer loop of `find`, as `sequence.find_loop`, with the log of the
indices of `h` read. -/
def sequence.find_loop_traced {T : Type} (Tr : Traits T) (m : Mem T) (h v : sequence)
    (bound : Nat) : Nat → Nat → List Nat → Nat × List Nat
  | 0, _, rd => (npos, rd)
  | fuel + 1, i, rd =>
    if i < bound then
      if (sequence.window_loop_traced Tr m h v i v.size 0 rd).1 then
        (i, (sequence.window_loop_traced Tr m h v i v.size 0 rd).2)
      else sequence.find_loop_traced Tr m h v bound fuel (i + 1)
        (sequence.window_loop_traced Tr m h v i v.size 0 rd).2
    else (npos, rd)

/-- The member `find(v, pos)` with the log of the indices of `h` it reads. -/
def sequence.find_traced {T : Type} (Tr : Traits T) (m : Mem T) (h v : sequence)
    (pos : Nat) : Nat × List Nat :=
  let bound := sz_add (sz_sub h.size v.size) 1
  sequence.find_loop_traced Tr m h v bound (bound - pos) pos []

/-- The loop of `operator==`, as `operator_eq_loop`, with the log of the
indices `i` at which `*(it1 + i)` and `*(it2 + i)` are read. -/
def operator_eq_loop_traced {T : Type} (Tr : Traits T) (al : Nat → Bool) (m : Mem T)
    (lhs rhs : sequence) : Nat → Nat → List Nat → Option Bool × List Nat
  | 0, i, rd => (some (decide (i = lhs.length) && decide (i = rhs.length)), rd)
  | fuel + 1, i, rd =>
    if comma (decide (i < lhs.length)) (decide (i < rhs.length)) then
      match Mem.read al m (lhs.begin + i), Mem.read al m (rhs.begin + i) with
      | some x, some y =>
        if !Tr.eq x y then (some false, rd ++ [i])
        else operator_eq_loop_traced Tr al m lhs rhs fuel (i + 1) (rd ++ [i])
      | _, _ => (none, rd ++ [i])
    else (some (decide (i = lhs.length) && decide (i = rhs.length)), rd)

/-- The function `operator==` with the log of the indices it reads. -/
def operator_eq_traced {T : Type} (Tr : Traits T) (al : Nat → Bool) (m : Mem T)
    (lhs rhs : sequence) : Option Bool × List Nat :=
  operator_eq_loop_traced Tr al m lhs rhs rhs.length 0 []

/-- The loop of `operator>`, as `operator_gt_loop`, with the log of the indices
read. -/
def operator_gt_loop_traced {T : Type} (Tr : Traits T) (al : Nat → Bool) (m : Mem T)
    (lhs rhs : sequence) : Nat → Nat → List Nat → Option Bool × List Nat
  | 0, i, rd => (some (decide (i < lhs.length) && decide (i = rhs.length)), rd)
  | fuel + 1, i, rd =>
    if comma (decide (i < lhs.length)) (decide (i < rhs.length)) then
      match Mem.read al m (lhs.begin + i), Mem.read al m (rhs.begin + i) with
      | some x, some y =>
        if Tr.lt x y then (some false, rd ++ [i])
        else operator_gt_loop_traced Tr al m lhs rhs fuel (i + 1) (rd ++ [i])
      | _, _ => (none, rd ++ [i])
    else (some (decide (i < lhs.length) && decide (i = rhs.length)), rd)

/-- The function `operator>` with the log of the indices it reads. -/
def operator_gt_traced {T : Type} (Tr : Traits T) (al : Nat → Bool) (m : Mem T)
    (lhs rhs : sequence) : Option Bool × List Nat :=
  operator_gt_loop_traced Tr al m lhs rhs rhs.length 0 []

/-- The loop of `operator<`, as `operator_lt_loop`, with the log of the indices
read. -/
def operator_lt_loop_traced {T : Type} (Tr : Traits T) (al : Nat → Bool) (m : Mem T)
    (lhs rhs : sequence) : Nat → Nat → List Nat → Option Bool × List Nat
  | 0, i, rd => (some (decide (i = lhs.length) && decide (i < rhs.length)), rd)
  | fuel + 1, i, rd =>
    if comma (decide (i < lhs.length)) (decide (i < rhs.length)) then
      match Mem.read al m (lhs.begin + i), Mem.read al m (rhs.begin + i) with
      | some x, some y =>
        if !Tr.lt x y then (some false, rd ++ [i])
        else operator_lt_loop_traced Tr al m lhs rhs fuel (i + 1) (rd ++ [i])
      | _, _ => (none, rd ++ [i])
    else (some (decide (i = lhs.length) && decide (i < rhs.length)), rd)

/-- The function `operator<` with the log of the indices it reads. -/
def operator_lt_traced {T : Type} (Tr : Traits T) (al : Nat → Bool) (m : Mem T)
    (lhs rhs : sequence) : Option Bool × List Nat :=
  operator_lt_loop_traced Tr al m lhs rhs rhs.length 0 []

/-! ## Concrete memories -/

/-- Memory `m` with the elements `s` laid out from address `base` on. -/
def load {T : Type} (base : Nat) (s : List T) (m : Mem T) : Mem T :=
  fun a => if h : base ≤ a ∧ a - base < s.length then s.get ⟨a - base, h.2⟩ else m a

/-- The character codes of a string literal. -/
def chars (s : String) : List Int := s.toList.map (fun c => (c.toNat : Int))

/-- A memory holding "hello" at address 16, "world" at address 32, "abcabc" at
address 48, "bc" at address 64 and "xy" at address 72; every other cell is 0. -/
def mem0 : Mem Int :=
  load 16 (chars "hello") (load 32 (chars "world") (load 48 (chars "abcabc")
    (load 64 (chars "bc") (load 72 (chars "xy") (fun _ => 0)))))

/-- The addresses of `mem0` that hold an element: those of its five strings.
Address 0, the null pointer, holds none. -/
def alloc0 (a : Nat) : Bool :=
  (decide (16 ≤ a) && decide (a < 21)) || (decide (32 ≤ a) && decide (a < 37)) ||
  (decide (48 ≤ a) && decide (a < 54)) || (decide (64 ≤ a) && decide (a < 66)) ||
  (decide (72 ≤ a) && decide (a < 74))

/-! ## The properties the claims speak of -/

/-- Every element of the view `v` lies at an address that holds an element:
`v` is a view over a buffer of the caller. -/
def sequence.readable (al : Nat → Bool) (v : sequence) : Prop :=
  ∀ i, i < v.length → al (v.seq_begin + i) = true

/-- The view `a` is lexicographically less than `b`: at the first index where
they differ `a` holds the smaller element, or `a` is a strict prefix of `b`. -/
def lex_less (m : Mem Int) (a b : sequence) : Prop :=
  (∃ i, i < min a.size b.size ∧ (∀ j, j < i → a.index m j = b.index m j) ∧
      a.index m i < b.index m i) ∨
  ((∀ i, i < min a.size b.size → a.index m i = b.index m i) ∧ a.size < b.size)

/-- The views `a` and `b` have the same length and the same elements. -/
def same_content (m : Mem Int) (a b : sequence) : Prop :=
  a.size = b.size ∧ ∀ i, i < a.size → a.index m i = b.index m i

/-- The window of `h` that starts at index `i` lies inside `h` and matches `n`
element by element under `seq_traits.eq`. -/
def occurs_at (m : Mem Int) (h n : sequence) (i : Nat) : Prop :=
  i + n.size ≤ h.size ∧
    ∀ j, j < n.size → seq_traits.eq (h.index m (i + j)) (n.index m j) = true

/-- The representation invariant of a view: `end == begin + length`, with
`begin <= end`. -/
def sequence.inv (v : sequence) : Prop :=
  v.seq_end = v.seq_begin + v.length ∧ v.seq_begin ≤ v.seq_end

/-! ## Properties of `compare` -/

theorem lex_less_asymm (m : Mem Int) (a b : sequence) :
    lex_less m a b → ¬ lex_less m b a := by
  unfold lex_less
  rintro (⟨i, hi, hpre, hlt⟩ | ⟨hall, hsz⟩) (⟨k, hk, hpre2, hlt2⟩ | ⟨hall2, hsz2⟩)
  · rcases Nat.lt_trichotomy i k with h | h | h
    · have := hpre2 i h; omega
    · subst h; omega
    · have := hpre k h; omega
  · have := hall2 i (by rw [Nat.min_comm]; exact hi); omega
  · have := hall k (by rw [Nat.min_comm]; exact hk); omega
  · omega

theorem lex_less_not_same (m : Mem Int) (a b : sequence) :
    lex_less m a b → ¬ same_content m a b := by
  unfold lex_less same_content
  rintro (⟨i, hi, _, hlt⟩ | ⟨_, hsz⟩) ⟨hs, hall⟩
  · have := hall i (lt_of_lt_of_le hi (Nat.min_le_left _ _)); omega
  · omega

theorem same_content_symm (m : Mem Int) (a b : sequence) :
    same_content m a b → same_content m b a := by
  rintro ⟨hs, hall⟩
  exact ⟨hs.symm, fun i hi => (hall i (by rw [hs]; exact hi)).symm⟩

theorem compare_loop_cases (m : Mem Int) (a b : sequence) :
    ∀ (fuel i : Nat), i + fuel = min a.size b.size →
      (∀ j, j < i → a.index m j = b.index m j) →
      (sequence.compare_loop seq_traits m a b fuel i = -1 ∧ lex_less m a b) ∨
      (sequence.compare_loop seq_traits m a b fuel i = 1 ∧ lex_less m b a) ∨
      (sequence.compare_loop seq_traits m a b fuel i = 0 ∧ same_content m a b) := by
  intro fuel
  induction fuel with
  | zero =>
    intro i hi hpre
    simp only [sequence.size, Nat.add_zero] at hi
    simp only [sequence.compare_loop]
    by_cases h1 : a.length > b.length
    · right; left
      refine ⟨by simp [h1], Or.inr ⟨fun k hk => ?_, h1⟩⟩
      exact (hpre k (by rw [hi, Nat.min_comm]; exact hk)).symm
    · by_cases h2 : a.length < b.length
      · left
        refine ⟨by simp [h1, h2], Or.inr ⟨fun k hk => ?_, h2⟩⟩
        exact hpre k (by rw [hi]; exact hk)
      · right; right
        refine ⟨by simp [h1, h2], by simp only [sequence.size]; omega, fun k hk => ?_⟩
        exact hpre k (by simp only [sequence.size] at hk; omega)
  | succ fuel ih =>
    intro i hi hpre
    simp only [sequence.size] at hi
    have hia : i < a.length := by omega
    have hib : i < b.length := by omega
    have hmin : i < min a.size b.size := by simp only [sequence.size]; omega
    simp only [sequence.compare_loop, hia, hib, and_self, if_true, seq_traits,
      decide_eq_true_eq]
    by_cases h1 : m (a.begin + i) < m (b.begin + i)
    · left
      exact ⟨by simp [h1], Or.inl ⟨i, hmin, hpre, h1⟩⟩
    · by_cases h2 : m (b.begin + i) < m (a.begin + i)
      · right; left
        refine ⟨by simp [h1, h2], Or.inl ⟨i, by rw [Nat.min_comm]; exact hmin, ?_, h2⟩⟩
        exact fun j hj => (hpre j hj).symm
      · simp only [h1, h2, if_false]
        apply ih (i + 1) (by simp only [sequence.size]; omega)
        intro j hj
        rcases Nat.lt_succ_iff_lt_or_eq.mp hj with h | h
        · exact hpre j h
        · subst h
          simp only [sequence.index, sequence.begin] at *
          omega

/-- C1: `a.compare(b)` over `seq_traits` is the three-way lexicographic
comparison.  It is -1 exactly when `a` holds the smaller element at the first
index where the views differ or `a` is a strict prefix of `b`, 1 exactly in the
mirrored cases, 0 exactly when the views have the same length and the same
elements, and it is never any other value. -/
theorem compare_three_way (m : Mem Int) (a b : sequence) :
    (a.compare seq_traits m b = -1 ↔ lex_less m a b) ∧
    (a.compare seq_traits m b = 1 ↔ lex_less m b a) ∧
    (a.compare seq_traits m b = 0 ↔ same_content m a b) ∧
    (a.compare seq_traits m b = -1 ∨ a.compare seq_traits m b = 0 ∨
      a.compare seq_traits m b = 1) := by
  have key := compare_loop_cases m a b (min a.size b.size) 0 (by simp)
    (fun j hj => absurd hj (Nat.not_lt_zero j))
  have hsize : min a.length b.length = min a.size b.size := rfl
  have e1 := lex_less_asymm m a b
  have e2 := lex_less_not_same m a b
  have e3 := lex_less_not_same m b a
  have e4 := same_content_symm m a b
  unfold sequence.compare
  rw [hsize]
  rcases key with ⟨hr, hp⟩ | ⟨hr, hp⟩ | ⟨hr, hp⟩ <;> rw [hr]
  · refine ⟨by simp [hp], ?_, ?_, by simp⟩
    · simp only [show ((-1 : Int) = 1) = False by simp, false_iff]; exact e1 hp
    · simp only [show ((-1 : Int) = 0) = False by simp, false_iff]; exact e2 hp
  · refine ⟨?_, by simp [hp], ?_, by simp⟩
    · simp only [show ((1 : Int) = -1) = False by simp, false_iff]
      exact fun h => e1 h hp
    · simp only [show ((1 : Int) = 0) = False by simp, false_iff]
      exact fun h => e3 hp (e4 h)
  · refine ⟨?_, ?_, by simp [hp], by simp⟩
    · simp only [show ((0 : Int) = -1) = False by simp, false_iff]
      exact fun h => e2 h hp
    · simp only [show ((0 : Int) = 1) = False by simp, false_iff]
      exact fun h => e3 h (e4 hp)

/-- The views "hello" and "world" of `mem0`: `compare` gives 0 for "hello"
against itself and -1 against "world". -/
theorem compare_hello_world :
    sequence.compare seq_traits mem0 (.ofPtrCount 16 5) (.ofPtrCount 16 5) = 0 ∧
    sequence.compare seq_traits mem0 (.ofPtrCount 16 5) (.ofPtrCount 32 5) = -1 ∧
    sequence.compare seq_traits mem0 (.ofPtrCount 32 5) (.ofPtrCount 16 5) = 1 ∧
    sequence.compare seq_traits mem0 (.ofPtrCount 16 3) (.ofPtrCount 16 5) = -1 := by
  decide

/-! ## Properties of `find` -/

theorem window_loop_true_iff {T : Type} (Tr : Traits T) (m : Mem T) (h v : sequence)
    (i : Nat) : ∀ (fuel j : Nat), j + fuel = v.size →
      (sequence.window_loop Tr m h v i fuel j = true ↔
        ∀ k, j ≤ k → k < v.size → Tr.eq (m (h.begin + i + k)) (m (v.begin + k)) = true) := by
  intro fuel
  induction fuel with
  | zero =>
    intro j hj
    simp only [sequence.window_loop, true_iff]
    intro k h1 h2
    omega
  | succ fuel ih =>
    intro j hj
    have hjv : j < v.size := by omega
    simp only [sequence.window_loop, hjv, if_true]
    by_cases he : Tr.eq (m (h.begin + i + j)) (m (v.begin + j)) = true
    · simp only [he, Bool.not_true, Bool.false_eq_true, if_false]
      rw [ih (j + 1) (by omega)]
      constructor
      · intro hall k h1 h2
        rcases Nat.eq_or_lt_of_le h1 with h3 | h3
        · subst h3; exact he
        · exact hall k h3 h2
      · intro hall k h1 h2
        exact hall k (by omega) h2
    · have he2 : Tr.eq (m (h.begin + i + j)) (m (v.begin + j)) = false := by
        simpa using he
      simp only [he2, Bool.not_false, if_true, Bool.false_eq_true, false_iff]
      intro hall
      exact he (hall j (Nat.le_refl j) hjv)

theorem window_true_iff {T : Type} (Tr : Traits T) (m : Mem T) (h v : sequence) (i : Nat) :
    sequence.window_loop Tr m h v i v.size 0 = true ↔
      ∀ k, k < v.size → Tr.eq (m (h.begin + i + k)) (m (v.begin + k)) = true := by
  rw [window_loop_true_iff Tr m h v i v.size 0 (by simp)]
  exact ⟨fun hall k hk => hall k (Nat.zero_le k) hk, fun hall k _ hk => hall k hk⟩

theorem find_loop_spec {T : Type} (Tr : Traits T) (m : Mem T) (h v : sequence)
    (bound : Nat) : ∀ (fuel i : Nat), fuel = bound - i →
      (sequence.find_loop Tr m h v bound fuel i = npos ∧
        ∀ k, i ≤ k → k < bound → sequence.window_loop Tr m h v k v.size 0 = false) ∨
      (i ≤ sequence.find_loop Tr m h v bound fuel i ∧
        sequence.find_loop Tr m h v bound fuel i < bound ∧
        sequence.window_loop Tr m h v (sequence.find_loop Tr m h v bound fuel i) v.size 0
          = true ∧
        ∀ k, i ≤ k → k < sequence.find_loop Tr m h v bound fuel i →
          sequence.window_loop Tr m h v k v.size 0 = false) := by
  intro fuel
  induction fuel with
  | zero =>
    intro i hi
    left
    refine ⟨rfl, fun k h1 h2 => ?_⟩
    omega
  | succ fuel ih =>
    intro i hi
    have hib : i < bound := by omega
    simp only [sequence.find_loop, hib, if_true]
    by_cases hw : sequence.window_loop Tr m h v i v.size 0 = true
    · right
      simp only [hw, if_true]
      exact ⟨Nat.le_refl i, hib, trivial, fun k h1 h2 => by omega⟩
    · have hw2 : sequence.window_loop Tr m h v i v.size 0 = false := by simpa using hw
      simp only [hw2, Bool.false_eq_true, if_false]
      rcases ih (i + 1) (by omega) with ⟨hr, hall⟩ | ⟨h1, h2, h3, hall⟩
      · left
        refine ⟨hr, fun k hk1 hk2 => ?_⟩
        rcases Nat.eq_or_lt_of_le hk1 with h3 | h3
        · subst h3; exact hw2
        · exact hall k h3 hk2
      · right
        refine ⟨by omega, h2, h3, fun k hk1 hk2 => ?_⟩
        rcases Nat.eq_or_lt_of_le hk1 with h4 | h4
        · subst h4; exact hw2
        · exact hall k h4 hk2

theorem find_bound_eq (h n : sequence) (hlen : h.size < npos) (hn : n.size ≤ h.size) :
    sz_add (sz_sub h.size n.size) 1 = h.size - n.size + 1 := by
  unfold sz_add sz_sub SIZE_MOD
  unfold npos at hlen
  have e : (h.size + 2 ^ 64 - n.size) % 2 ^ 64 = h.size - n.size := by
    have : h.size + 2 ^ 64 - n.size = (h.size - n.size) + 2 ^ 64 := by omega
    rw [this, Nat.add_mod_right]
    exact Nat.mod_eq_of_lt (by omega)
  rw [e]
  exact Nat.mod_eq_of_lt (by omega)

theorem occurs_at_iff_window (m : Mem Int) (h n : sequence) (i : Nat) :
    occurs_at m h n i ↔
      (i + n.size ≤ h.size ∧ sequence.window_loop seq_traits m h n i n.size 0 = true) := by
  unfold occurs_at
  rw [window_true_iff]
  simp only [sequence.index, sequence.begin, Nat.add_assoc]

/-- What `find` returns on a haystack shorter than `npos` and a needle that is
not longer than the haystack: `npos` when no window from `pos` on matches, the
lowest matching index from `pos` on otherwise. -/
theorem find_cases (m : Mem Int) (h n : sequence) (pos : Nat)
    (hlen : h.size < npos) (hn : n.size ≤ h.size) :
    (h.find seq_traits m n pos = npos ∧ ∀ k, pos ≤ k → ¬ occurs_at m h n k) ∨
    (pos ≤ h.find seq_traits m n pos ∧ h.find seq_traits m n pos < npos ∧
      occurs_at m h n (h.find seq_traits m n pos) ∧
      ∀ k, pos ≤ k → occurs_at m h n k → h.find seq_traits m n pos ≤ k) := by
  have hb := find_bound_eq h n hlen hn
  unfold sequence.find
  simp only [hb]
  have hnp : h.size - n.size + 1 ≤ npos := by unfold npos at *; omega
  rcases find_loop_spec seq_traits m h n (h.size - n.size + 1)
      (h.size - n.size + 1 - pos) pos rfl with ⟨hr, hall⟩ | ⟨h1, h2, h3, hall⟩
  · left
    refine ⟨hr, fun k hk hocc => ?_⟩
    rw [occurs_at_iff_window] at hocc
    have := hall k hk (by omega)
    rw [this] at hocc
    exact absurd hocc.2 (by simp)
  · right
    refine ⟨h1, by omega, ?_, fun k hk hocc => ?_⟩
    · rw [occurs_at_iff_window]
      exact ⟨by omega, h3⟩
    · rw [occurs_at_iff_window] at hocc
      by_contra hlt
      have := hall k hk (by omega)
      rw [this] at hocc
      exact absurd hocc.2 (by simp)

/-- C2: on a haystack `h` and a needle `n` with `n.size() <= h.size()`,
`h.find(n, pos)` is the lowest index `i >= pos` whose window lies inside `h` and
matches `n` element-wise; it is `npos` exactly when there is no such index; and
when `r = h.find(n)` is not `npos`, `h.find(n, r + 1)` is not `r`.  The length
of a view is below `npos`: its elements and its one-past-the-end pointer have
distinct 64-bit addresses. -/
theorem find_lowest_match (m : Mem Int) (h n : sequence) (pos : Nat)
    (hlen : h.size < npos) (hn : n.size ≤ h.size) :
    (∀ i, pos ≤ i → occurs_at m h n i →
      pos ≤ h.find seq_traits m n pos ∧ occurs_at m h n (h.find seq_traits m n pos) ∧
      h.find seq_traits m n pos ≤ i) ∧
    (h.find seq_traits m n pos = npos ↔ ¬ ∃ i, pos ≤ i ∧ occurs_at m h n i) ∧
    (h.find seq_traits m n 0 ≠ npos →
      h.find seq_traits m n (h.find seq_traits m n 0 + 1) ≠ h.find seq_traits m n 0) := by
  refine ⟨?_, ?_, ?_⟩
  · intro i hi hocc
    rcases find_cases m h n pos hlen hn with ⟨_, hall⟩ | ⟨h1, _, h3, hall⟩
    · exact absurd hocc (hall i hi)
    · exact ⟨h1, h3, hall i hi hocc⟩
  · rcases find_cases m h n pos hlen hn with ⟨hr, hall⟩ | ⟨h1, h2, h3, _⟩
    · simp only [hr, true_iff]
      rintro ⟨i, hi, hocc⟩
      exact hall i hi hocc
    · constructor
      · intro hr; omega
      · intro hno
        exact absurd ⟨_, h1, h3⟩ hno
  · intro hr
    rcases find_cases m h n (h.find seq_traits m n 0 + 1) hlen hn with
      ⟨hr2, _⟩ | ⟨h1, _, _, _⟩
    · rw [hr2]; exact fun e => hr e.symm
    · omega

/-- The view "abcabc" of `mem0` as haystack: `find("bc")` is 1, `find("bc", 2)`
is 4 and `find("xy")` is `npos`. -/
theorem find_abcabc :
    sequence.find seq_traits mem0 (.ofPtrCount 48 6) (.ofPtrCount 64 2) 0 = 1 ∧
    sequence.find seq_traits mem0 (.ofPtrCount 48 6) (.ofPtrCount 64 2) 2 = 4 ∧
    sequence.find seq_traits mem0 (.ofPtrCount 48 6) (.ofPtrCount 72 2) 0 = npos := by
  decide

/-- C2 at the haystack "abcabc", the needle "bc" and `pos = 2`. -/
theorem find_lowest_match_witness :
    (sequence.ofPtrCount 48 6).size < npos ∧
    (sequence.ofPtrCount 64 2).size ≤ (sequence.ofPtrCount 48 6).size ∧
    sequence.find seq_traits mem0 (.ofPtrCount 48 6) (.ofPtrCount 64 2) 2 = 4 ∧
    ((sequence.ofPtrCount 48 6).find seq_traits mem0 (.ofPtrCount 64 2) 0 ≠ npos →
      (sequence.ofPtrCount 48 6).find seq_traits mem0 (.ofPtrCount 64 2)
        ((sequence.ofPtrCount 48 6).find seq_traits mem0 (.ofPtrCount 64 2) 0 + 1) ≠
      (sequence.ofPtrCount 48 6).find seq_traits mem0 (.ofPtrCount 64 2) 0) :=
  ⟨by decide, by decide, by decide,
    (find_lowest_match mem0 (.ofPtrCount 48 6) (.ofPtrCount 64 2) 2
      (by decide) (by decide)).2.2⟩

/-! ## Properties of `rfind` -/

/-- C3: `rfind` does not return the highest matching index at or below `pos`.
Over the haystack "abcabc" with the needle "bc", whose windows at 1 and at 4
match: `rfind("bc", 1)` is 4 and `rfind("bc", 4)` is `npos`.  With the empty
needle at `pos = 0`, `rfind` is 6 over "abcabc" and `npos` over the empty
haystack. -/
theorem rfind_searches_above_pos :
    occurs_at mem0 (.ofPtrCount 48 6) (.ofPtrCount 64 2) 1 ∧
    occurs_at mem0 (.ofPtrCount 48 6) (.ofPtrCount 64 2) 4 ∧
    sequence.rfind seq_traits mem0 (.ofPtrCount 48 6) (.ofPtrCount 64 2) 1 = 4 ∧
    sequence.rfind seq_traits mem0 (.ofPtrCount 48 6) (.ofPtrCount 64 2) 4 = npos ∧
    occurs_at mem0 (.ofPtrCount 48 6) (.ofPtrCount 64 0) 0 ∧
    sequence.rfind seq_traits mem0 (.ofPtrCount 48 6) (.ofPtrCount 64 0) 0 = 6 ∧
    occurs_at mem0 (.ofPtrCount 48 0) (.ofPtrCount 64 0) 0 ∧
    sequence.rfind seq_traits mem0 (.ofPtrCount 48 0) (.ofPtrCount 64 0) 0 = npos := by
  unfold occurs_at
  decide

/-! ## Properties of `subseq` -/

/-- C4: the bounds check of `subseq` is off by one.  Over "hello" (length 5),
`subseq(4, 2)` does not raise although `4 + 2 > 5`, and returns a view of 2
elements from index 4; `subseq(0, 0)` raises although `0 + 0 <= 5`. -/
theorem subseq_check_off_by_one :
    sequence.subseq (.ofPtrCount 16 5) 4 2 = .ok (.ofPtrCount 20 2) ∧
    (sequence.ofPtrCount 16 5).size < 4 + 2 ∧
    sequence.subseq (.ofPtrCount 16 5) 0 0 = .error .out_of_range ∧
    0 + 0 ≤ (sequence.ofPtrCount 16 5).size :=
  ⟨rfl, by decide, rfl, by decide⟩

/-- C5: `subseq(pos)` takes `count = npos` as a number.  Over "hello",
`subseq(0, npos)` and `subseq(1, npos)` raise, and `subseq(2, npos)` is a view
of `npos` elements, not of the 3 that remain. -/
theorem subseq_npos_not_resolved :
    sequence.subseq (.ofPtrCount 16 5) 0 npos = .error .out_of_range ∧
    sequence.subseq (.ofPtrCount 16 5) 1 npos = .error .out_of_range ∧
    sequence.subseq (.ofPtrCount 16 5) 2 npos = .ok (.ofPtrCount 18 npos) ∧
    (sequence.ofPtrCount 18 npos).size ≠ (sequence.ofPtrCount 16 5).size - 2 :=
  ⟨rfl, rfl, rfl, by decide⟩

theorem subseq_ok_of_inside (v : sequence) (pos count : Nat)
    (hpos : pos < v.size) (hc : 1 ≤ count) (hr : pos + count ≤ v.size) :
    v.subseq pos count = .ok (sequence.ofPtrCount (v.seq_begin + pos) count) := by
  unfold sequence.size at hpos hr
  have h1 : ¬ (pos ≥ v.length ∨ sz_sub (sz_add pos count) 1 > v.length) := by
    unfold sz_sub sz_add SIZE_MOD
    omega
  unfold sequence.subseq
  rw [if_neg h1]

/-- C6: when `pos < v.size()`, `count >= 1` and `pos + count <= v.size()`,
`v.subseq(pos, count)` does not raise; the view `r` it returns has
`r.size() == count`, `r.begin() == v.begin() + pos`,
`r.end() == r.begin() + count`, and `r[i] == v[pos + i]` for every
`i < count`. -/
theorem subseq_inside (m : Mem Int) (v : sequence) (pos count : Nat)
    (hpos : pos < v.size) (hc : 1 ≤ count) (hr : pos + count ≤ v.size) :
    ∃ r, v.subseq pos count = .ok r ∧ r.size = count ∧ r.begin = v.begin + pos ∧
      r.end_ = r.begin + count ∧ ∀ i, i < count → r.index m i = v.index m (pos + i) := by
  refine ⟨_, subseq_ok_of_inside v pos count hpos hc hr, rfl, rfl, rfl, fun i _ => ?_⟩
  simp only [sequence.index, sequence.ofPtrCount, Nat.add_assoc]

/-- C6 at "hello": `subseq(2, 3)` is the view of 3 elements from index 2, which
holds "llo". -/
theorem subseq_inside_witness :
    2 < (sequence.ofPtrCount 16 5).size ∧ 2 + 3 ≤ (sequence.ofPtrCount 16 5).size ∧
    sequence.subseq (.ofPtrCount 16 5) 2 3 = .ok (.ofPtrCount 18 3) ∧
    (List.range 3).map (sequence.index mem0 (.ofPtrCount 18 3)) = chars "llo" ∧
    ∃ r, sequence.subseq (.ofPtrCount 16 5) 2 3 = .ok r ∧ r.size = 3 ∧
      r.begin = (sequence.ofPtrCount 16 5).begin + 2 ∧ r.end_ = r.begin + 3 ∧
      ∀ i, i < 3 → r.index mem0 i = (sequence.ofPtrCount 16 5).index mem0 (2 + i) :=
  ⟨by decide, by decide, rfl, by decide,
    subseq_inside mem0 (.ofPtrCount 16 5) 2 3 (by decide) (by decide) (by decide)⟩

/-! ## Properties of `copy` -/

theorem copy_loop_spec (v : sequence) (dest count pos : Nat) (hv : v.size ≤ npos)
    (hsep : dest + count ≤ v.begin ∨ v.begin + v.size ≤ dest) :
    ∀ (fuel i : Nat) (m : Mem Int) (rd : List Nat), i + fuel = count → pos + i ≤ v.size →
      (sequence.copy_loop seq_traits v dest count pos fuel i m rd).ret
          = min count (v.size - pos) ∧
      (∀ j, i ≤ j → j < (sequence.copy_loop seq_traits v dest count pos fuel i m rd).ret →
        (sequence.copy_loop seq_traits v dest count pos fuel i m rd).mem (dest + j)
          = m (v.begin + pos + j)) ∧
      (∀ a, (a < dest + i ∨
          dest + (sequence.copy_loop seq_traits v dest count pos fuel i m rd).ret ≤ a) →
        (sequence.copy_loop seq_traits v dest count pos fuel i m rd).mem a = m a) ∧
      (∀ x, x ∈ (sequence.copy_loop seq_traits v dest count pos fuel i m rd).reads →
        x ∈ rd ∨ x < v.size) := by
  intro fuel
  induction fuel with
  | zero =>
    intro i m rd hi hp
    simp only [sequence.copy_loop]
    refine ⟨by omega, fun j h1 h2 => by omega, fun a _ => trivial, fun x hx => Or.inl hx⟩
  | succ fuel ih =>
    intro i m rd hi hp
    have hic : i < count := by omega
    have hsz : sz_add pos i = pos + i := by
      unfold sz_add SIZE_MOD
      unfold npos at hv
      exact Nat.mod_eq_of_lt (by omega)
    unfold sequence.size at hp hv
    by_cases hlt : pos + i < v.length
    · have hcond : i < count ∧ sz_add pos i < v.length := ⟨hic, by rw [hsz]; exact hlt⟩
      simp only [sequence.copy_loop, hcond, and_self, if_true]
      obtain ⟨h1, h2, h3, h4⟩ := ih (i + 1)
        (m.store (dest + i) (seq_traits.assign (m (dest + i)) (m (v.seq_begin + pos + i))))
        (rd ++ [pos + i]) (by omega) (by simp only [sequence.size]; omega)
      have hret : i + 1 ≤ min count (v.size - pos) := by
        simp only [sequence.size]; omega
      refine ⟨h1, ?_, ?_, ?_⟩
      · intro j hj1 hj2
        rcases Nat.eq_or_lt_of_le hj1 with h | h
        · subst h
          rw [h3 (dest + i) (Or.inl (by omega))]
          simp [Mem.store, seq_traits, sequence.begin]
        · rw [h2 j h hj2]
          rw [h1] at hj2
          simp only [sequence.size, sequence.begin] at hsep hj2
          have hne : v.begin + pos + j ≠ dest + i := by
            simp only [sequence.begin]; omega
          simp [Mem.store, hne]
      · intro a ha
        rw [h3 a (by rw [h1] at ha ⊢; omega)]
        have hne : a ≠ dest + i := by rw [h1] at ha; omega
        simp [Mem.store, hne]
      · intro x hx
        rcases h4 x hx with h | h
        · rcases List.mem_append.mp h with h5 | h5
          · exact Or.inl h5
          · right
            simp only [List.mem_singleton] at h5
            simp only [sequence.size]; omega
        · exact Or.inr h
    · have hcond : ¬ (i < count ∧ sz_add pos i < v.length) := by
        rw [hsz]; exact fun h => hlt h.2
      simp only [sequence.copy_loop, hcond, if_false]
      refine ⟨by simp only [sequence.size]; omega, fun j h1 h2 => by omega,
        fun a _ => trivial, fun x hx => Or.inl hx⟩

/-- C8, amended: for `pos < v.size()` and a destination buffer of `count`
elements that does not overlap the elements of `v`, `v.copy(dest, count, pos)` does not raise
and returns `k = min(count, v.size() - pos)`; afterwards `dest[i]` holds
`v[pos + i]` for every `i < k`; every cell outside `dest[0 .. k)`, so every
`dest[j]` with `j >= k`, holds what it held before; and every index of `v` that
was read is below `v.size()`. -/
theorem copy_spec (m : Mem Int) (v : sequence) (dest count pos : Nat)
    (hv : v.size ≤ npos) (hpos : pos < v.size)
    (hsep : dest + count ≤ v.begin ∨ v.begin + v.size ≤ dest) :
    ∃ r, v.copy seq_traits m dest count pos = .ok r ∧
      r.ret = min count (v.size - pos) ∧
      (∀ i, i < r.ret → r.mem (dest + i) = v.index m (pos + i)) ∧
      (∀ i, i < r.ret → r.mem (dest + i) = v.index r.mem (pos + i)) ∧
      (∀ a, (a < dest ∨ dest + r.ret ≤ a) → r.mem a = m a) ∧
      (∀ j, r.ret ≤ j → r.mem (dest + j) = m (dest + j)) ∧
      (∀ x, x ∈ r.reads → x < v.size) := by
  obtain ⟨h1, h2, h3, h4⟩ := copy_loop_spec v dest count pos hv hsep count 0 m []
    (by omega) (by omega)
  have hok : v.copy seq_traits m dest count pos
      = .ok (sequence.copy_loop seq_traits v dest count pos count 0 m []) := by
    unfold sequence.copy
    rw [if_neg (by simp only [sequence.size] at hpos; omega)]
  have hpre : ∀ i, i < (sequence.copy_loop seq_traits v dest count pos count 0 m []).ret →
      (sequence.copy_loop seq_traits v dest count pos count 0 m []).mem (dest + i)
        = v.index m (pos + i) := by
    intro i hi
    rw [h2 i (Nat.zero_le i) hi]
    simp only [sequence.index, sequence.begin, Nat.add_assoc]
  refine ⟨_, hok, h1, hpre, ?_, ?_, ?_, ?_⟩
  · intro i hi
    rw [hpre i hi]
    simp only [sequence.index]
    symm
    apply h3
    rw [h1] at hi ⊢
    simp only [sequence.size, sequence.begin] at hsep hi ⊢
    omega
  · intro a ha
    exact h3 a (by omega)
  · intro j hj
    exact h3 (dest + j) (Or.inr (by omega))
  · intro x hx
    rcases h4 x hx with h | h
    · cases h
    · exact h

/-- C8, amended, at "hello": `copy(dest, 9, 3)` into the cells from address 100 on, which
hold 0, returns 2, reads the indices 3 and 4, and leaves "lo" followed by the
old zeros. -/
theorem copy_spec_witness :
    (sequence.copy seq_traits mem0 (.ofPtrCount 16 5) 100 9 3).map
        (fun r => (r.ret, r.reads, (List.range 4).map (fun i => r.mem (100 + i))))
      = .ok (2, [3, 4], [108, 111, 0, 0]) ∧
    ∃ r, sequence.copy seq_traits mem0 (.ofPtrCount 16 5) 100 9 3 = .ok r ∧
      r.ret = min 9 ((sequence.ofPtrCount 16 5).size - 3) ∧
      (∀ i, i < r.ret → r.mem (100 + i) = (sequence.ofPtrCount 16 5).index mem0 (3 + i)) ∧
      (∀ i, i < r.ret → r.mem (100 + i) = (sequence.ofPtrCount 16 5).index r.mem (3 + i)) ∧
      (∀ a, (a < 100 ∨ 100 + r.ret ≤ a) → r.mem a = mem0 a) ∧
      (∀ j, r.ret ≤ j → r.mem (100 + j) = mem0 (100 + j)) ∧
      (∀ x, x ∈ r.reads → x < (sequence.ofPtrCount 16 5).size) :=
  ⟨rfl, copy_spec mem0 (.ofPtrCount 16 5) 100 9 3 (by decide) (by decide)
    (Or.inr (by decide))⟩

/-- C8, as the claim states it, fails for a destination that overlaps the
view.  Over "hello" at address 16, `copy(begin() + 1, 4, 0)` returns 4 and
leaves "hhhhh" in the buffer: `dest[1]` holds 'h', not the element `v[1]`, 'e',
of the view that was copied.  With `dest = begin() - 1`, `copy(dest, 2, 0)`
leaves `dest[0]`, 'h', different from what `v[0]` holds afterwards, 'e'. -/
theorem copy_overlapping_dest :
    (sequence.copy seq_traits mem0 (.ofPtrCount 16 5) 17 4 0).map
        (fun r => (r.ret, (List.range 5).map (fun i => r.mem (16 + i))))
      = .ok (4, chars "hhhhh") ∧
    (¬ ∃ r, sequence.copy seq_traits mem0 (.ofPtrCount 16 5) 17 4 0 = .ok r ∧
      ∀ i, i < r.ret → r.mem (17 + i) = (sequence.ofPtrCount 16 5).index mem0 (0 + i)) ∧
    (sequence.copy seq_traits mem0 (.ofPtrCount 16 5) 15 2 0).map
        (fun r => (r.ret, (List.range 6).map (fun i => r.mem (15 + i))))
      = .ok (2, chars "heello") ∧
    (¬ ∃ r, sequence.copy seq_traits mem0 (.ofPtrCount 16 5) 15 2 0 = .ok r ∧
      ∀ i, i < r.ret → r.mem (15 + i) = (sequence.ofPtrCount 16 5).index r.mem (0 + i)) := by
  refine ⟨rfl, ?_, rfl, ?_⟩
  · rintro ⟨r, hr, hall⟩
    have hcalc : sequence.copy seq_traits mem0 (.ofPtrCount 16 5) 17 4 0
        = .ok (sequence.copy_loop seq_traits (.ofPtrCount 16 5) 17 4 0 4 0 mem0 []) := rfl
    rw [hcalc] at hr
    cases hr
    have h1 := hall 1 (by decide)
    revert h1
    decide
  · rintro ⟨r, hr, hall⟩
    have hcalc : sequence.copy seq_traits mem0 (.ofPtrCount 16 5) 15 2 0
        = .ok (sequence.copy_loop seq_traits (.ofPtrCount 16 5) 15 2 0 2 0 mem0 []) := rfl
    rw [hcalc] at hr
    cases hr
    have h0 := hall 0 (by decide)
    revert h0
    decide

/-! ## Properties of the relational operators -/

theorem seq_traits_eq (x y : Int) : seq_traits.eq x y = decide (x = y) := rfl

theorem seq_traits_lt (x y : Int) : seq_traits.lt x y = decide (x < y) := rfl

theorem read_of_alloc {T : Type} (al : Nat → Bool) (m : Mem T) (p : Nat)
    (h : al p = true) : Mem.read al m p = some (m p) := by
  simp [Mem.read, h]

theorem read_eq_some {T : Type} (al : Nat → Bool) (m : Mem T) (p : Nat) (x : T)
    (h : Mem.read al m p = some x) : x = m p := by
  unfold Mem.read at h
  by_cases hp : al p = true
  · rw [if_pos hp] at h
    exact (Option.some.inj h).symm
  · rw [if_neg hp] at h
    cases h

theorem operator_eq_loop_sound (al : Nat → Bool) (m : Mem Int) (a b : sequence) :
    ∀ (fuel i : Nat), i + fuel = b.length →
      operator_eq_loop seq_traits al m a b fuel i = some true →
      a.length = b.length ∧
        ∀ j, i ≤ j → j < b.length → m (a.begin + j) = m (b.begin + j) := by
  intro fuel
  induction fuel with
  | zero =>
    intro i hi hr
    simp only [operator_eq_loop, Option.some.injEq, Bool.and_eq_true,
      decide_eq_true_eq] at hr
    exact ⟨by omega, fun j h1 h2 => by omega⟩
  | succ fuel ih =>
    intro i hi hr
    have hib : i < b.length := by omega
    have hcond : comma (decide (i < a.length)) (decide (i < b.length)) = true := by
      simp [comma, hib]
    simp only [operator_eq_loop, hcond, if_true] at hr
    cases hx : Mem.read al m (a.begin + i) with
    | none => simp [hx] at hr
    | some x =>
      cases hy : Mem.read al m (b.begin + i) with
      | none => simp [hx, hy] at hr
      | some y =>
        simp only [hx, hy, seq_traits_eq] at hr
        have ex := read_eq_some al m _ x hx
        have ey := read_eq_some al m _ y hy
        by_cases he : x = y
        · have hd : (!decide (x = y)) = false := by simp [he]
          simp only [hd, Bool.false_eq_true, if_false] at hr
          obtain ⟨h1, h2⟩ := ih (i + 1) (by omega) hr
          refine ⟨h1, fun j hj1 hj2 => ?_⟩
          rcases Nat.eq_or_lt_of_le hj1 with h3 | h3
          · subst h3; rw [← ex, ← ey]; exact he
          · exact h2 j h3 hj2
        · have hd : (!decide (x = y)) = true := by simp [he]
          simp [hd] at hr

theorem operator_eq_loop_complete (al : Nat → Bool) (m : Mem Int) (a b : sequence)
    (ha : a.readable al) (hb : b.readable al) (hlen : a.length = b.length) :
    ∀ (fuel i : Nat), i + fuel = b.length →
      (∀ j, i ≤ j → j < b.length → m (a.begin + j) = m (b.begin + j)) →
      operator_eq_loop seq_traits al m a b fuel i = some true := by
  intro fuel
  induction fuel with
  | zero =>
    intro i hi _
    have e1 : i = b.length := by omega
    simp [operator_eq_loop, e1, hlen]
  | succ fuel ih =>
    intro i hi hall
    have hib : i < b.length := by omega
    have hcond : comma (decide (i < a.length)) (decide (i < b.length)) = true := by
      simp [comma, hib]
    have hx := read_of_alloc al m (a.begin + i) (ha i (by omega))
    have hy := read_of_alloc al m (b.begin + i) (hb i hib)
    have he := hall i (Nat.le_refl i) hib
    have hd : (!decide (m (a.begin + i) = m (b.begin + i))) = false := by simp [he]
    simp only [operator_eq_loop, hcond, if_true, hx, hy, seq_traits_eq, hd,
      Bool.false_eq_true, if_false]
    exact ih (i + 1) (by omega) (fun j hj1 hj2 => hall j (by omega) hj2)

theorem operator_eq_true_iff (al : Nat → Bool) (m : Mem Int) (a b : sequence)
    (ha : a.readable al) (hb : b.readable al) :
    operator_eq seq_traits al m a b = some true ↔ same_content m a b := by
  unfold operator_eq same_content sequence.size sequence.index
  constructor
  · intro hr
    obtain ⟨h1, h2⟩ := operator_eq_loop_sound al m a b b.length 0 (by simp) hr
    exact ⟨h1, fun i hi => h2 i (Nat.zero_le i) (by omega)⟩
  · rintro ⟨h1, h2⟩
    exact operator_eq_loop_complete al m a b ha hb h1 b.length 0 (by simp)
      (fun j _ hj => h2 j (by omega))

/-- C7, as the claim states it, fails on the empty view: `subseq(0, size())` of
the default-constructed view raises, so it returns no view at all. -/
theorem subseq_whole_empty_raises :
    sequence.default.size = 0 ∧
    sequence.default.subseq 0 sequence.default.size = .error .out_of_range ∧
    ¬ ∃ r, sequence.default.subseq 0 sequence.default.size = .ok r ∧
      operator_eq seq_traits alloc0 mem0 r sequence.default = some true := by
  refine ⟨rfl, rfl, ?_⟩
  rintro ⟨r, hr, _⟩
  have hcalc : sequence.default.subseq 0 sequence.default.size = .error .out_of_range := rfl
  rw [hcalc] at hr
  cases hr

/-- C7, amended: for every view `v` that is not empty, over a buffer whose
elements can be read, `v.subseq(0, v.size())` returns, without raising, a view
that is equal to `v` under `operator==`; on an empty view it raises
out-of-range. -/
theorem subseq_whole (al : Nat → Bool) (m : Mem Int) (v : sequence) :
    (v.size = 0 → v.subseq 0 v.size = .error .out_of_range) ∧
    (0 < v.size → v.readable al →
      ∃ r, v.subseq 0 v.size = .ok r ∧ operator_eq seq_traits al m r v = some true) := by
  constructor
  · intro h0
    unfold sequence.size at h0
    unfold sequence.subseq
    rw [if_pos (Or.inl (by omega))]
  · intro hpos hv
    have hok : v.subseq 0 v.size = .ok (sequence.ofPtrCount (v.seq_begin + 0) v.size) := by
      unfold sequence.size at hpos ⊢
      have h1 : ¬ (0 ≥ v.length ∨ sz_sub (sz_add 0 v.length) 1 > v.length) := by
        unfold sz_sub sz_add SIZE_MOD
        omega
      unfold sequence.subseq
      rw [if_neg h1]
    refine ⟨_, hok, ?_⟩
    have hr : (sequence.ofPtrCount (v.seq_begin + 0) v.size).readable al := by
      intro i hi
      exact hv i hi
    rw [operator_eq_true_iff al m _ v hr hv]
    exact ⟨rfl, fun i _ => rfl⟩

/-- C7, amended, at "hello" and at the default-constructed view. -/
theorem subseq_whole_witness :
    sequence.default.subseq 0 sequence.default.size = .error .out_of_range ∧
    ∃ r, sequence.subseq (.ofPtrCount 16 5) 0 (sequence.ofPtrCount 16 5).size = .ok r ∧
      operator_eq seq_traits alloc0 mem0 r (.ofPtrCount 16 5) = some true :=
  ⟨(subseq_whole alloc0 mem0 sequence.default).1 rfl,
    (subseq_whole alloc0 mem0 (.ofPtrCount 16 5)).2 (by decide)
      (by unfold sequence.readable; decide)⟩

/-- C9: `operator==` reads the left view past its end.  With `a` the
default-constructed, empty view and `b` the view "x", which differ in size, the
walk of `a == b` reads `a[0]` through the null pointer before any length is
compared: `a == b` does not evaluate to false and `a != b` does not evaluate to
true, neither has a value. -/
theorem operator_eq_reads_out_of_bounds :
    sequence.default.size ≠ (sequence.ofPtrCount 72 1).size ∧
    alloc0 (sequence.default.begin + 0) = false ∧
    operator_eq seq_traits alloc0 mem0 sequence.default (.ofPtrCount 72 1) = none ∧
    operator_ne seq_traits alloc0 mem0 sequence.default (.ofPtrCount 72 1) = none ∧
    operator_eq seq_traits alloc0 mem0 sequence.default (.ofPtrCount 72 1) ≠ some false ∧
    operator_ne seq_traits alloc0 mem0 sequence.default (.ofPtrCount 72 1) ≠ some true := by
  decide

/-- The views "ab" and "ab" inside "abcabc" are `==`; views of different
lengths inside one buffer are not, whichever is the longer. -/
theorem operator_eq_abcabc :
    operator_eq seq_traits alloc0 mem0 (.ofPtrCount 48 2) (.ofPtrCount 51 2) = some true ∧
    operator_eq seq_traits alloc0 mem0 (.ofPtrCount 48 2) (.ofPtrCount 51 3) = some false ∧
    operator_eq seq_traits alloc0 mem0 (.ofPtrCount 48 3) (.ofPtrCount 51 2) = some false ∧
    operator_ne seq_traits alloc0 mem0 (.ofPtrCount 48 3) (.ofPtrCount 51 2) = some true := by
  decide

/-- C10: the relational operators do not order views as `compare` does.  With
`a` the view "a" and `b` the view "b" (the first two elements of "abcabc"):
`a.compare(b)` is -1 but `a < b` is false and `a >= b` is true;
`b.compare(a)` is 1 but `b > a` is false and `b <= a` is true. -/
theorem relational_operators_disagree :
    sequence.compare seq_traits mem0 (.ofPtrCount 48 1) (.ofPtrCount 49 1) = -1 ∧
    operator_lt seq_traits alloc0 mem0 (.ofPtrCount 48 1) (.ofPtrCount 49 1) = some false ∧
    operator_ge seq_traits alloc0 mem0 (.ofPtrCount 48 1) (.ofPtrCount 49 1) = some true ∧
    sequence.compare seq_traits mem0 (.ofPtrCount 49 1) (.ofPtrCount 48 1) = 1 ∧
    operator_gt seq_traits alloc0 mem0 (.ofPtrCount 49 1) (.ofPtrCount 48 1) = some false ∧
    operator_le seq_traits alloc0 mem0 (.ofPtrCount 49 1) (.ofPtrCount 48 1) = some true := by
  decide

/-! ## More properties of `compare` -/

theorem compare_cases (m : Mem Int) (a b : sequence) :
    (a.compare seq_traits m b = -1 ∧ lex_less m a b) ∨
    (a.compare seq_traits m b = 1 ∧ lex_less m b a) ∨
    (a.compare seq_traits m b = 0 ∧ same_content m a b) :=
  compare_loop_cases m a b (min a.size b.size) 0 (by simp)
    (fun j hj => absurd hj (Nat.not_lt_zero j))

/-- C11: over `seq_traits`, `a.compare(b) == -(b.compare(a))` for every two
views, and `a.compare(a) == 0` for every view. -/
theorem compare_antisymmetric (m : Mem Int) (a b : sequence) :
    a.compare seq_traits m b = - b.compare seq_traits m a ∧
    a.compare seq_traits m a = 0 := by
  have e1 := lex_less_asymm m a b
  have e2 := lex_less_not_same m a b
  have e3 := lex_less_not_same m b a
  have e4 := same_content_symm m a b
  have e5 := same_content_symm m b a
  constructor
  · rcases compare_cases m a b with ⟨hr, hp⟩ | ⟨hr, hp⟩ | ⟨hr, hp⟩ <;>
      rcases compare_cases m b a with ⟨hr2, hp2⟩ | ⟨hr2, hp2⟩ | ⟨hr2, hp2⟩ <;>
      first
        | (rw [hr, hr2]; decide)
        | (rw [hr, hr2]; done)
        | exact absurd hp2 (e1 hp)
        | exact absurd hp (e1 hp2)
        | exact absurd (e5 hp2) (e2 hp)
        | exact absurd hp2 (e3 hp)
        | exact absurd (e4 hp) (e3 hp2)
        | exact absurd hp (e2 hp2)
  · rcases compare_cases m a a with ⟨_, hp⟩ | ⟨_, hp⟩ | ⟨hr, _⟩
    · exact absurd hp (lex_less_asymm m a a hp)
    · exact absurd hp (lex_less_asymm m a a hp)
    · exact hr

/-! ## What `operator<` and `operator>=` compute -/

/-- C13: `v.at(pos)` and `v.copy(dest, count, pos)` raise out-of-range exactly
when `pos >= v.size()`; for `pos < v.size()`, `at(pos)` returns the element at
index `pos`; and a `copy` that raises leaves the memory as it was. -/
theorem at_copy_out_of_range {T : Type} (Tr : Traits T) (m : Mem T) (v : sequence)
    (dest count pos : Nat) :
    (v.at m pos = .error .out_of_range ↔ pos ≥ v.size) ∧
    (pos < v.size → v.at m pos = .ok (v.index m pos)) ∧
    (v.copy Tr m dest count pos = .error .out_of_range ↔ pos ≥ v.size) ∧
    ((∃ r, v.copy Tr m dest count pos = .ok r) ↔ pos < v.size) ∧
    (pos ≥ v.size → sequence.copy_mem_after Tr m v dest count pos = m) := by
  unfold sequence.size
  by_cases hp : pos ≥ v.length
  · have hat : v.at m pos = .error .out_of_range := by
      unfold sequence.at; rw [if_pos hp]
    have hcp : v.copy Tr m dest count pos = .error .out_of_range := by
      unfold sequence.copy; rw [if_pos hp]
    refine ⟨by simp [hat, hp], fun h => by omega, by simp [hcp, hp], ?_, fun _ => ?_⟩
    · constructor
      · rintro ⟨r, hr⟩
        rw [hcp] at hr
        cases hr
      · intro h; omega
    · unfold sequence.copy_mem_after
      rw [hcp]
  · have hat : v.at m pos = .ok (v.index m pos) := by
      unfold sequence.at sequence.index; rw [if_neg hp]
    have hcp : v.copy Tr m dest count pos
        = .ok (sequence.copy_loop Tr v dest count pos count 0 m []) := by
      unfold sequence.copy; rw [if_neg hp]
    refine ⟨?_, fun _ => hat, ?_, ?_, fun h => absurd h hp⟩
    · rw [hat]
      constructor
      · intro h; cases h
      · intro h; exact absurd h hp
    · rw [hcp]
      constructor
      · intro h; cases h
      · intro h; exact absurd h hp
    · exact ⟨fun _ => by omega, fun _ => ⟨_, hcp⟩⟩

/-- C13 at "hello": `at(10)` raises, `at(1)` returns the element 'e', and
`copy(dest, 3, 10)` raises and leaves the memory as it was. -/
theorem at_copy_out_of_range_witness :
    sequence.at mem0 (.ofPtrCount 16 5) 10 = .error .out_of_range ∧
    sequence.at mem0 (.ofPtrCount 16 5) 1 = .ok 101 ∧
    sequence.copy seq_traits mem0 (.ofPtrCount 16 5) 100 3 10 = .error .out_of_range ∧
    sequence.copy_mem_after seq_traits mem0 (.ofPtrCount 16 5) 100 3 10 = mem0 :=
  ⟨(at_copy_out_of_range seq_traits mem0 (.ofPtrCount 16 5) 100 3 10).1.mpr (by decide),
    (at_copy_out_of_range seq_traits mem0 (.ofPtrCount 16 5) 100 3 1).2.1 (by decide),
    (at_copy_out_of_range seq_traits mem0 (.ofPtrCount 16 5) 100 3 10).2.2.1.mpr (by decide),
    (at_copy_out_of_range seq_traits mem0 (.ofPtrCount 16 5) 100 3 10).2.2.2.2 (by decide)⟩

/-! ## Assignment -/

/-- C14: the copy assignment does not give `a` the triple of `b`.  For every
two views, after `a = b` the view `a` has `begin() == b.size()`, the end of
`b` and its own old length.  With `a` the default-constructed view and `b` the
view "hello" at address 16, `a` becomes (5, 21, 0): `a.begin()` is not
`b.begin()` and `a.size()` is not `b.size()`. -/
theorem operator_assign_wrong_member :
    (∀ self original : sequence,
      (sequence.operator_assign self original).begin = original.size ∧
      (sequence.operator_assign self original).end_ = original.end_ ∧
      (sequence.operator_assign self original).size = self.size) ∧
    sequence.operator_assign sequence.default (.ofPtrCount 16 5) = ⟨5, 21, 0⟩ ∧
    (sequence.operator_assign sequence.default (.ofPtrCount 16 5)).begin
      ≠ (sequence.ofPtrCount 16 5).begin ∧
    (sequence.operator_assign sequence.default (.ofPtrCount 16 5)).size
      ≠ (sequence.ofPtrCount 16 5).size :=
  ⟨fun _ _ => ⟨rfl, rfl, rfl⟩, by decide, by decide, by decide⟩

/-! ## The representation invariant -/

theorem sz_sub_of_le (a b : Nat) (ha : a ≤ npos) (hb : b ≤ a) : sz_sub a b = a - b := by
  unfold sz_sub SIZE_MOD
  unfold npos at ha
  have : a + 2 ^ 64 - b = (a - b) + 2 ^ 64 := by omega
  rw [this, Nat.add_mod_right]
  exact Nat.mod_eq_of_lt (by omega)

/-- C17: the invariant `end == begin + length`, `begin <= end` holds of the
default-constructed view, of length 0, and of `sequence(s, count)`, which has
`size() == count` and `begin() + count == end()`.  It is kept by the copy
constructor, which copies the triple; by `remove_prefix(n)` and
`remove_suffix(n)` for `n <= size()`, which move `begin` forward, respectively
`end` backward, by `n`, take `n` off `size()` and leave the other end in place;
and by `swap`, which exchanges the two triples. -/
theorem representation_invariant :
    (sequence.default.inv ∧ sequence.default.size = 0) ∧
    (∀ s count : Nat, (sequence.ofPtrCount s count).inv ∧
      (sequence.ofPtrCount s count).size = count ∧
      (sequence.ofPtrCount s count).begin + count = (sequence.ofPtrCount s count).end_) ∧
    (∀ v : sequence, v.inv → (sequence.ofSequence v).inv ∧ sequence.ofSequence v = v) ∧
    (∀ (v : sequence) (n : Nat), v.inv → v.size ≤ npos → n ≤ v.size →
      sequence.inv ( sequence.remove_prefix v n) ∧
      sequence.begin ( sequence.remove_prefix v n) = v.begin + n ∧
      sequence.size ( sequence.remove_prefix v n) = v.size - n ∧
      sequence.end_ ( sequence.remove_prefix v n) = v.end_) ∧
    (∀ (v : sequence) (n : Nat), v.inv → v.size ≤ npos → n ≤ v.size →
      (sequence.remove_suffix v n).inv ∧
      (sequence.remove_suffix v n).end_ + n = v.end_ ∧
      (sequence.remove_suffix v n).size = v.size - n ∧
      (sequence.remove_suffix v n).begin = v.begin) ∧
    (∀ a b : sequence, a.inv → b.inv →
      (a.swap b).1 = b ∧ (a.swap b).2 = a ∧ (a.swap b).1.inv ∧ (a.swap b).2.inv) := by
  refine ⟨⟨⟨rfl, Nat.le_refl 0⟩, rfl⟩, ?_, ?_, ?_, ?_, ?_⟩
  · intro s count
    exact ⟨⟨rfl, Nat.le_add_right s count⟩, rfl, rfl⟩
  · intro v hv
    have e : sequence.ofSequence v = v := rfl
    rw [e]
    exact ⟨hv, rfl⟩
  · intro v n hv hsz hn
    obtain ⟨h1, h2⟩ := hv
    unfold sequence.size at hsz hn
    have hl := sz_sub_of_le v.length n hsz hn
    simp only [sequence.inv, sequence.remove_prefix, sequence.begin, sequence.size,
      sequence.end_, hl, and_true]
    omega
  · intro v n hv hsz hn
    obtain ⟨h1, h2⟩ := hv
    unfold sequence.size at hsz hn
    have hl := sz_sub_of_le v.length n hsz hn
    simp only [sequence.inv, sequence.remove_suffix, sequence.begin, sequence.size,
      sequence.end_, hl, and_true]
    omega
  · intro a b ha hb
    have e1 : (a.swap b).1 = b := rfl
    have e2 : (a.swap b).2 = a := rfl
    rw [e1, e2]
    exact ⟨rfl, rfl, hb, ha⟩

/-- C17 at the view "hello": `remove_prefix(2)` gives (18, 21, 3),
`remove_suffix(2)` gives (16, 19, 3), and both keep the invariant. -/
theorem representation_invariant_witness :
    sequence.remove_prefix (.ofPtrCount 16 5) 2 = ⟨18, 21, 3⟩ ∧
    sequence.remove_suffix (.ofPtrCount 16 5) 2 = ⟨16, 19, 3⟩ ∧
    sequence.inv ( sequence.remove_prefix (.ofPtrCount 16 5) 2) ∧
    (sequence.remove_suffix (.ofPtrCount 16 5) 2).inv ∧
    (sequence.ofSequence (.ofPtrCount 16 5)).inv ∧
    ((sequence.ofPtrCount 16 5).swap sequence.default).1.inv :=
  ⟨by decide, by decide,
    (representation_invariant.2.2.2.1 (.ofPtrCount 16 5) 2
      (representation_invariant.2.1 16 5).1 (by decide) (by decide)).1,
    (representation_invariant.2.2.2.2.1 (.ofPtrCount 16 5) 2
      (representation_invariant.2.1 16 5).1 (by decide) (by decide)).1,
    (representation_invariant.2.2.1 (.ofPtrCount 16 5)
      (representation_invariant.2.1 16 5).1).1,
    (representation_invariant.2.2.2.2.2 (.ofPtrCount 16 5) sequence.default
      (representation_invariant.2.1 16 5).1 representation_invariant.1.1).2.2.1⟩

/-! ## `seq_traits::length` and the pointer-only constructor -/

theorem seq_traits_length_loop_none :
    ∀ (fuel it result : Nat), it ≠ 0 → seq_traits_length_loop fuel it result = none := by
  intro fuel
  induction fuel with
  | zero => intro it result _; rfl
  | succ fuel ih =>
    intro it result hit
    simp only [seq_traits_length_loop, hit, ne_eq, not_false_eq_true, if_true]
    exact ih (it + 1) (sz_add result 1) (by omega)

/-- C15: `seq_traits::length` does not stop at the null terminator.  At the
address 16 of `mem0`, where "hello" is followed by a null element, so that the
terminator-scan length is 5, `seq_traits::length` has not returned after any
number of iterations, and the constructor `sequence(s)` yields no view, while
`sequence(s, 5)` is the view (16, 21, 5).  The only pointer on which `length`
returns is the null pointer. -/
theorem seq_traits_length_ignores_terminator :
    (∀ i, i < 5 → mem0 (16 + i) ≠ 0) ∧ mem0 (16 + 5) = 0 ∧
    (∀ fuel, seq_traits_length fuel 16 = none) ∧
    (∀ fuel, sequence.ofPtr fuel 16 = none) ∧
    sequence.ofPtrCount 16 5 = ⟨16, 21, 5⟩ ∧
    (∀ fuel s n, seq_traits_length fuel s = some n → s = 0 ∧ n = 0) := by
  have hnone : ∀ fuel, seq_traits_length fuel 16 = none :=
    fun fuel => seq_traits_length_loop_none fuel 16 0 (by decide)
  refine ⟨by decide, by decide, hnone, ?_, by decide, ?_⟩
  · intro fuel
    unfold sequence.ofPtr
    rw [hnone fuel]
  · intro fuel s n h
    by_cases hs : s = 0
    · subst hs
      cases fuel with
      | zero => cases h
      | succ fuel =>
        simp only [seq_traits_length, seq_traits_length_loop, ne_eq, not_true_eq_false,
          if_false, Option.some.injEq] at h
        exact ⟨rfl, h.symm⟩
    · unfold seq_traits_length at h
      rw [seq_traits_length_loop_none fuel s 0 hs] at h
      cases h

/-! ## Properties of `std::hash` -/

theorem hash_none {T : Type} (m : Mem T) (s : sequence) (h : s.begin ≠ s.end_) :
    hash m s = none := by
  unfold hash
  cases hf : s.end_ - s.begin with
  | zero => simp [hash_loop, h]
  | succ fuel => simp [hash_loop, h, hash_of_element]

/-- C16: `std::hash` of a view computes no value.  The views "ab" at the
addresses 48 and 51 of `mem0` are `==`, and neither has a hash: the body of the
loop, which is reached for every view with `begin() != end()`, holds the
ill-formed expression `hash(*it)`. -/
theorem hash_has_no_value :
    operator_eq seq_traits alloc0 mem0 (.ofPtrCount 48 2) (.ofPtrCount 51 2) = some true ∧
    hash mem0 (.ofPtrCount 48 2) = none ∧
    hash mem0 (.ofPtrCount 51 2) = none ∧
    (¬ ∃ x, hash mem0 (.ofPtrCount 48 2) = some x ∧ hash mem0 (.ofPtrCount 51 2) = some x) ∧
    (∀ (m : Mem Int) (s : sequence), s.begin ≠ s.end_ → hash m s = none) := by
  refine ⟨by decide, by decide, by decide, ?_, fun m s h => hash_none m s h⟩
  rintro ⟨x, hx, _⟩
  have hcalc : hash mem0 (.ofPtrCount 48 2) = none := by decide
  rw [hcalc] at hx
  cases hx

/-! ## `rfind` with the default `pos` -/

theorem rfind_loop_spec {T : Type} (Tr : Traits T) (m : Mem T) (h v : sequence)
    (bound : Nat) : ∀ (fuel i k : Nat), fuel = bound - i →
      (sequence.rfind_loop Tr m h v bound fuel i k = k ∧
        ∀ j, i ≤ j → j < bound → sequence.window_loop Tr m h v j v.size 0 = false) ∨
      (i ≤ sequence.rfind_loop Tr m h v bound fuel i k ∧
        sequence.rfind_loop Tr m h v bound fuel i k < bound ∧
        sequence.window_loop Tr m h v (sequence.rfind_loop Tr m h v bound fuel i k) v.size 0
          = true ∧
        ∀ j, sequence.rfind_loop Tr m h v bound fuel i k < j → j < bound →
          sequence.window_loop Tr m h v j v.size 0 = false) := by
  intro fuel
  induction fuel with
  | zero =>
    intro i k hi
    left
    exact ⟨rfl, fun j h1 h2 => by omega⟩
  | succ fuel ih =>
    intro i k hi
    have hib : i < bound := by omega
    simp only [sequence.rfind_loop, hib, if_true]
    by_cases hw : sequence.window_loop Tr m h v i v.size 0 = true
    · simp only [hw, if_true]
      right
      rcases ih (i + 1) i (by omega) with ⟨hr, hall⟩ | ⟨h1, h2, h3, hall⟩
      · rw [hr]
        exact ⟨Nat.le_refl i, hib, hw, fun j hj1 hj2 => hall j (by omega) hj2⟩
      · exact ⟨by omega, h2, h3, hall⟩
    · have hw2 : sequence.window_loop Tr m h v i v.size 0 = false := by simpa using hw
      simp only [hw2, Bool.false_eq_true, if_false]
      rcases ih (i + 1) k (by omega) with ⟨hr, hall⟩ | ⟨h1, h2, h3, hall⟩
      · left
        refine ⟨hr, fun j hj1 hj2 => ?_⟩
        rcases Nat.eq_or_lt_of_le hj1 with h4 | h4
        · subst h4; exact hw2
        · exact hall j h4 hj2
      · right
        exact ⟨by omega, h2, h3, hall⟩

theorem rfind_default_cases (m : Mem Int) (h n : sequence)
    (hlen : h.size < npos) (hn : n.size ≤ h.size) :
    (h.rfind seq_traits m n npos = npos ∧ ∀ j, ¬ occurs_at m h n j) ∨
    (h.rfind seq_traits m n npos < npos ∧ occurs_at m h n (h.rfind seq_traits m n npos) ∧
      ∀ j, occurs_at m h n j → j ≤ h.rfind seq_traits m n npos) := by
  have hb := find_bound_eq h n hlen hn
  have hp : sz_add npos 1 = 0 := by decide
  unfold sequence.rfind
  simp only [hb, hp]
  have hnp : h.size - n.size + 1 ≤ npos := by unfold npos at *; omega
  rcases rfind_loop_spec seq_traits m h n (h.size - n.size + 1)
      (h.size - n.size + 1 - 0) 0 npos rfl with ⟨hr, hall⟩ | ⟨_, h2, h3, hall⟩
  · left
    refine ⟨hr, fun j hocc => ?_⟩
    rw [occurs_at_iff_window] at hocc
    have := hall j (Nat.zero_le j) (by omega)
    rw [this] at hocc
    exact absurd hocc.2 (by simp)
  · right
    refine ⟨by omega, ?_, fun j hocc => ?_⟩
    · rw [occurs_at_iff_window]
      exact ⟨by omega, h3⟩
    · rw [occurs_at_iff_window] at hocc
      by_contra hlt
      have := hall j (by omega) (by omega)
      rw [this] at hocc
      exact absurd hocc.2 (by simp)

/-- C18: on a haystack `h` and a needle `n` with `n.size() <= h.size()`,
`h.rfind(n)` with the default `pos = npos` is the highest index whose window
lies inside `h` and matches `n` element-wise, and it is `npos` exactly when `h`
holds no occurrence of `n`.  The length of a view is below `npos`. -/
theorem rfind_default_highest_match (m : Mem Int) (h n : sequence)
    (hlen : h.size < npos) (hn : n.size ≤ h.size) :
    (∀ i, occurs_at m h n i →
      occurs_at m h n (h.rfind seq_traits m n npos) ∧ i ≤ h.rfind seq_traits m n npos) ∧
    (h.rfind seq_traits m n npos = npos ↔ ¬ ∃ i, occurs_at m h n i) := by
  rcases rfind_default_cases m h n hlen hn with ⟨hr, hall⟩ | ⟨h1, h2, hall⟩
  · refine ⟨fun i hocc => absurd hocc (hall i), ?_⟩
    simp only [hr, true_iff]
    rintro ⟨i, hocc⟩
    exact hall i hocc
  · refine ⟨fun i hocc => ⟨h2, hall i hocc⟩, ?_⟩
    constructor
    · intro hr; omega
    · intro hno
      exact absurd ⟨_, h2⟩ hno

/-- C18 at the haystack "abcabc": `rfind("bc")` is 4 and `rfind("xy")` is
`npos`. -/
theorem rfind_default_highest_match_witness :
    sequence.rfind seq_traits mem0 (.ofPtrCount 48 6) (.ofPtrCount 64 2) npos = 4 ∧
    sequence.rfind seq_traits mem0 (.ofPtrCount 48 6) (.ofPtrCount 72 2) npos = npos ∧
    ((sequence.ofPtrCount 48 6).rfind seq_traits mem0 (.ofPtrCount 64 2) npos = npos ↔
      ¬ ∃ i, occurs_at mem0 (.ofPtrCount 48 6) (.ofPtrCount 64 2) i) :=
  ⟨by decide, by decide,
    (rfind_default_highest_match mem0 (.ofPtrCount 48 6) (.ofPtrCount 64 2)
      (by decide) (by decide)).2⟩

/-! ## The elements read by `find` and by the relational operators -/

theorem window_loop_traced_fst {T : Type} (Tr : Traits T) (m : Mem T) (h v : sequence)
    (i : Nat) : ∀ (fuel j : Nat) (rd : List Nat),
      (sequence.window_loop_traced Tr m h v i fuel j rd).1
        = sequence.window_loop Tr m h v i fuel j := by
  intro fuel
  induction fuel with
  | zero => intro j rd; rfl
  | succ fuel ih =>
    intro j rd
    simp only [sequence.window_loop_traced, sequence.window_loop]
    split
    · split
      · rfl
      · exact ih (j + 1) (rd ++ [i + j])
    · rfl

theorem find_loop_traced_fst {T : Type} (Tr : Traits T) (m : Mem T) (h v : sequence)
    (bound : Nat) : ∀ (fuel i : Nat) (rd : List Nat),
      (sequence.find_loop_traced Tr m h v bound fuel i rd).1
        = sequence.find_loop Tr m h v bound fuel i := by
  intro fuel
  induction fuel with
  | zero => intro i rd; rfl
  | succ fuel ih =>
    intro i rd
    simp only [sequence.find_loop_traced, sequence.find_loop, window_loop_traced_fst]
    split
    · split
      · rfl
      · exact ih (i + 1) _
    · rfl

theorem find_traced_fst {T : Type} (Tr : Traits T) (m : Mem T) (h v : sequence)
    (pos : Nat) : (sequence.find_traced Tr m h v pos).1 = sequence.find Tr m h v pos :=
  find_loop_traced_fst Tr m h v _ _ pos []

theorem operator_eq_traced_fst {T : Type} (Tr : Traits T) (al : Nat → Bool) (m : Mem T)
    (a b : sequence) : ∀ (fuel i : Nat) (rd : List Nat),
      (operator_eq_loop_traced Tr al m a b fuel i rd).1
        = operator_eq_loop Tr al m a b fuel i := by
  intro fuel
  induction fuel with
  | zero => intro i rd; rfl
  | succ fuel ih =>
    intro i rd
    simp only [operator_eq_loop_traced, operator_eq_loop]
    split
    · cases Mem.read al m (a.begin + i) with
      | none => rfl
      | some x =>
        cases Mem.read al m (b.begin + i) with
        | none => rfl
        | some y =>
          simp only []
          split
          · rfl
          · exact ih (i + 1) (rd ++ [i])
    · rfl

theorem operator_gt_traced_fst {T : Type} (Tr : Traits T) (al : Nat → Bool) (m : Mem T)
    (a b : sequence) : ∀ (fuel i : Nat) (rd : List Nat),
      (operator_gt_loop_traced Tr al m a b fuel i rd).1
        = operator_gt_loop Tr al m a b fuel i := by
  intro fuel
  induction fuel with
  | zero => intro i rd; rfl
  | succ fuel ih =>
    intro i rd
    simp only [operator_gt_loop_traced, operator_gt_loop]
    split
    · cases Mem.read al m (a.begin + i) with
      | none => rfl
      | some x =>
        cases Mem.read al m (b.begin + i) with
        | none => rfl
        | some y =>
          simp only []
          split
          · rfl
          · exact ih (i + 1) (rd ++ [i])
    · rfl

theorem operator_lt_traced_fst {T : Type} (Tr : Traits T) (al : Nat → Bool) (m : Mem T)
    (a b : sequence) : ∀ (fuel i : Nat) (rd : List Nat),
      (operator_lt_loop_traced Tr al m a b fuel i rd).1
        = operator_lt_loop Tr al m a b fuel i := by
  intro fuel
  induction fuel with
  | zero => intro i rd; rfl
  | succ fuel ih =>
    intro i rd
    simp only [operator_lt_loop_traced, operator_lt_loop]
    split
    · cases Mem.read al m (a.begin + i) with
      | none => rfl
      | some x =>
        cases Mem.read al m (b.begin + i) with
        | none => rfl
        | some y =>
          simp only []
          split
          · rfl
          · exact ih (i + 1) (rd ++ [i])
    · rfl

/-- C12: `find` with a needle two or more elements longer than the haystack
reads past the end of the haystack and can return an index.  With `h` the
empty view at the start of "abcabc" and `n` the view "ab", the loop bound
`len1 - len2 + 1` wraps to `npos`; `h.find(n, 0)` reads the indices 0 and 1 of
`h`, which has no element, and returns 0, not `npos`. -/
theorem find_long_needle_reads_past_end :
    0 ≤ (sequence.ofPtrCount 48 0).size ∧
    (sequence.ofPtrCount 51 2).size > (sequence.ofPtrCount 48 0).size - 0 ∧
    (List.range 2).map (sequence.index mem0 (.ofPtrCount 51 2)) = chars "ab" ∧
    sz_add (sz_sub (sequence.ofPtrCount 48 0).size (sequence.ofPtrCount 51 2).size) 1 = npos ∧
    sequence.find_traced seq_traits mem0 (.ofPtrCount 48 0) (.ofPtrCount 51 2) 0 = (0, [0, 1]) ∧
    sequence.find seq_traits mem0 (.ofPtrCount 48 0) (.ofPtrCount 51 2) 0 = 0 ∧
    sequence.find seq_traits mem0 (.ofPtrCount 48 0) (.ofPtrCount 51 2) 0 ≠ npos := by
  decide

/-- C19: the walks of `operator==`, `operator<` and `operator>` run over the
indices below `rhs.length`, not below the shorter length.  With `a` the
default-constructed, empty view and `b` the view "x", each of `a == b`, `a < b`
and `a > b` reads index 0, which is not below `min(a.size(), b.size()) = 0`,
and the read, through the null pointer, is out of bounds. -/
theorem relational_operators_read_past_shorter :
    min sequence.default.size (sequence.ofPtrCount 72 1).size = 0 ∧
    operator_eq_traced seq_traits alloc0 mem0 sequence.default (.ofPtrCount 72 1)
      = (none, [0]) ∧
    operator_lt_traced seq_traits alloc0 mem0 sequence.default (.ofPtrCount 72 1)
      = (none, [0]) ∧
    operator_gt_traced seq_traits alloc0 mem0 sequence.default (.ofPtrCount 72 1)
      = (none, [0]) ∧
    ¬ (∀ i, i ∈ (operator_eq_traced seq_traits alloc0 mem0 sequence.default
        (.ofPtrCount 72 1)).2 →
      i < min sequence.default.size (sequence.ofPtrCount 72 1).size) := by
  refine ⟨by decide, by decide, by decide, by decide, ?_⟩
  intro hall
  have h0 := hall 0 (by decide)
  revert h0
  decide

end Sequence
